import Mathlib

/-!
Verification of the `stringextn` string-utility library.

The Python source is shallowly embedded: a Python `str` is modelled as a
`List Char` of Unicode code points.  Pure functions become Lean functions;
fallible functions return `Except`.  Regular-expression operations that the
source performs (`re.sub`, `re.split`, alternation of escaped literals) are
embedded by their scanning semantics on lists of characters.

Case mapping: Python's `str.lower`/`str.upper`/`str.title` are modelled on
the ASCII range (A-Z/a-z); `pyLower` additionally covers the four Latin
titlecase digraph letters.  Other non-ASCII code points are treated as
caseless.  Every theorem whose truth depends on case mapping restricts its
inputs to this modelled domain, where the model agrees with Python; the
slug-shape result is independent of which characters lowercase and is
proved for all inputs.
-/

namespace Stringextn

/-- Characters matched by the regex class `[A-Z]`. -/
def isUpperAZ (c : Char) : Bool := 'A' ≤ c && c ≤ 'Z'

/-- Characters matched by the regex class `[a-z]`. -/
def isLowerAZ (c : Char) : Bool := 'a' ≤ c && c ≤ 'z'

/-- Characters matched by the regex class `[0-9]`. -/
def isDigit09 (c : Char) : Bool := '0' ≤ c && c ≤ '9'

/-- ASCII letters (the cased characters of the ASCII-scoped embedding). -/
def isAlphaAscii (c : Char) : Bool := isUpperAZ c || isLowerAZ c

/-- Python `str.lower`, modelled on the ASCII range (A-Z maps to a-z)
together with the four Latin titlecase digraph letters U+01C5, U+01C8,
U+01CB and U+01F2, each of which `str.lower` maps to the following code
point.  Other non-ASCII case mappings are not modelled; theorems that
depend on lowercasing restrict their inputs to this modelled domain. -/
def pyLower (c : Char) : Char :=
  if isUpperAZ c then Char.ofNat (c.toNat + 32)
  else if c = 'ǅ' then 'ǆ'
  else if c = 'ǈ' then 'ǉ'
  else if c = 'ǋ' then 'ǌ'
  else if c = 'ǲ' then 'ǳ'
  else c

/-- Python `str.upper`, ASCII-scoped: maps a-z to A-Z, all else unchanged. -/
def pyUpper (c : Char) : Char :=
  if isLowerAZ c then Char.ofNat (c.toNat - 32) else c

/-- Characters matched by the Python regex class `\s` for `str` patterns:
exactly the characters for which `str.isspace()` is true. -/
def isPySpace (c : Char) : Bool :=
  let n := c.toNat
  (9 ≤ n && n ≤ 13) || n == 32 || (28 ≤ n && n ≤ 31) || n == 0x85 ||
  n == 0xa0 || n == 0x1680 || (0x2000 ≤ n && n ≤ 0x200a) || n == 0x2028 ||
  n == 0x2029 || n == 0x202f || n == 0x205f || n == 0x3000

/-- Characters matched by the separator regex `[_\-\s]` used by
`to_camel` and `to_pascal` (cases.py lines 53 and 79). -/
def isSepChar (c : Char) : Bool := c == '_' || c == '-' || isPySpace c

/-- Python `str.title`, ASCII-scoped, one step: a cased character is
uppercased when the previous character was not cased and lowercased
otherwise; uncased characters pass through and reset the state. -/
def pyTitleAux : Bool → List Char → List Char
  | _, [] => []
  | prevCased, c :: rest =>
    (if isAlphaAscii c then (if prevCased then pyLower c else pyUpper c) else c)
      :: pyTitleAux (isAlphaAscii c) rest

/-- Python `str.title` (ASCII-scoped), used by `to_camel` and `to_pascal`
for every token: the first letter of each maximal alphabetic run is
uppercased and the remaining letters of the run are lowercased. -/
def pyTitle (l : List Char) : List Char := pyTitleAux false l

/-- cases.py `to_camel`: split on the regex `[_\-\s]`, lowercase the first
part, `str.title` every later part, and concatenate. -/
def to_camel (s : List Char) : List Char :=
  let parts := s.splitOnP isSepChar
  (parts.headI.map pyLower) ++ (parts.tail.map pyTitle).flatten

/-- cases.py `to_pascal`: split on the regex `[_\-\s]`, `str.title` every
part, and concatenate. -/
def to_pascal (s : List Char) : List Char :=
  ((s.splitOnP isSepChar).map pyTitle).flatten

/-- One global pass of `re.sub(r'(.)([A-Z][a-z]+)', r'\1_\2', s)`
(cases.py line 26).  The scanner tries to match at each position: group 1
is any character other than a newline (`.` without DOTALL), group 2 is an
uppercase letter followed by a maximal nonempty run of lowercase letters.
On a match the replacement inserts an underscore between the groups and
scanning resumes after the matched text; otherwise the scanner advances one
character.  The fuel argument is the length of the remaining input, which
bounds the number of scanning steps. -/
def subPassA : ℕ → List Char → List Char
  | 0, l => l
  | _ + 1, [] => []
  | fuel + 1, c1 :: rest =>
    if c1 = '\n' then c1 :: subPassA fuel rest
    else
      match rest with
      | c2 :: rest2 =>
        if isUpperAZ c2 && !(rest2.takeWhile isLowerAZ).isEmpty then
          let lows := rest2.takeWhile isLowerAZ
          c1 :: '_' :: c2 :: (lows ++ subPassA fuel (rest2.drop lows.length))
        else c1 :: subPassA fuel rest
      | [] => [c1]

/-- One global pass of `re.sub(r'([a-z0-9])([A-Z])', r'\1_\2', s)`
(cases.py line 27): at each position, a lowercase letter or digit followed
by an uppercase letter gets an underscore inserted between them, and
scanning resumes after the two matched characters. -/
def subPassB : ℕ → List Char → List Char
  | 0, l => l
  | _ + 1, [] => []
  | fuel + 1, c1 :: rest =>
    match rest with
    | c2 :: rest2 =>
      if (isLowerAZ c1 || isDigit09 c1) && isUpperAZ c2 then
        c1 :: '_' :: c2 :: subPassB fuel rest2
      else c1 :: subPassB fuel rest
    | [] => [c1]

/-- cases.py `to_snake`: the two regex passes, then `.replace(" ", "_")`,
then `.lower()`. -/
def to_snake (s : List Char) : List Char :=
  let s1 := subPassA s.length s
  let s2 := subPassB s1.length s1
  (s2.map fun c => if c = ' ' then '_' else c).map pyLower

/-- Modelled from the spec words, for comparison with the source behaviour
(claim C1): title-casing that uppercases the token's first alphabetic
character and lowercases every subsequent character. -/
def specTitle : List Char → List Char
  | [] => []
  | c :: rest =>
    if isAlphaAscii c then pyUpper c :: rest.map pyLower
    else c :: specTitle rest

/-! ### slug.py -/

/-- Characters matched by the regex class `[a-z0-9]` in slug.py. -/
def isSlugChar (c : Char) : Bool := isLowerAZ c || isDigit09 c

/-- The pass `re.sub(r'[^a-z0-9]+', '-', s)` of slug.py line 32: every
maximal run of characters outside `[a-z0-9]` is replaced by one hyphen.
The boolean records whether the previous character belonged to a run that
already produced its hyphen. -/
def collapseNonSlug : Bool → List Char → List Char
  | _, [] => []
  | inRun, c :: rest =>
    if isSlugChar c then c :: collapseNonSlug false rest
    else if inRun then collapseNonSlug true rest
    else '-' :: collapseNonSlug true rest

/-- Removal of all trailing hyphens (the right half of `str.strip('-')`). -/
def dropTrailingDash : List Char → List Char
  | [] => []
  | c :: rest =>
    match dropTrailingDash rest with
    | [] => if c = '-' then [] else [c]
    | l => c :: l

/-- Python `s.strip('-')`: remove all leading and trailing hyphens. -/
def pyStripDash (l : List Char) : List Char :=
  dropTrailingDash (l.dropWhile fun c => c == '-')

/-- slug.py `slugify`: clean the text, lowercase, collapse non-alphanumeric
runs to single hyphens, strip boundary hyphens.  The `clean_text` pipeline
of clean.py delegates to the Unicode character database (`html.unescape`,
NFKD normalisation, emoji tables), so it is kept abstract here as an
arbitrary function on strings; the theorems below hold for every choice of
it, in particular for the real pipeline. -/
def slugify (cleanText : List Char → List Char) (s : List Char) : List Char :=
  pyStripDash (collapseNonSlug false ((cleanText s).map pyLower))

/-- Absence of two adjacent hyphens. -/
def noDoubleDash : List Char → Bool
  | [] => true
  | c :: rest => !(c == '-' && rest.head? == some '-') && noDoubleDash rest

/-- The language of the regex `[a-z0-9]+(-[a-z0-9]+)*` anchored at both
ends: nonempty, only lowercase ASCII letters, digits and hyphens, first and
last characters alphanumeric, and no two adjacent hyphens. -/
def validSlug (l : List Char) : Bool :=
  !l.isEmpty &&
  l.all (fun c => isSlugChar c || c == '-') &&
  (match l.head? with | some c => isSlugChar c | none => false) &&
  (match l.getLast? with | some c => isSlugChar c | none => false) &&
  noDoubleDash l

/-! ### replace.py -/

/-- Error raised by `multi_replace` on an empty mapping: the compiled
pattern is the empty alternation `re.compile("")`, it matches the empty
string at position 0, and the replacement callback then evaluates
`mapping[""]` on an empty dict, raising `KeyError`. -/
inductive ReplaceError where
  | keyError
deriving DecidableEq

/-- The first (key, value) pair of the mapping whose key matches at the
start of `s`.  This is how the compiled alternation of the escaped literal
keys behaves at one position: alternatives are tried in the order the keys
appear in the mapping and the first literal that matches wins. -/
def firstKeyAt (mapping : List (List Char × List Char)) (s : List Char) :
    Option (List Char × List Char) :=
  mapping.find? fun kv => kv.1.isPrefixOf s

/-- The scan of `pattern.sub` over `s` for a literal alternation whose keys
are all nonempty: left to right; at a position where some key matches, emit
that key's value and resume after the matched key (values are never
rescanned); at a position with no match, copy the character through.  Fuel
is the length of the remaining input; with nonempty keys every step
consumes at least one character, so the fuel never runs out. -/
def replaceScan (mapping : List (List Char × List Char)) :
    ℕ → List Char → List Char
  | 0, s => s
  | _ + 1, [] => []
  | fuel + 1, c :: rest =>
    match firstKeyAt mapping (c :: rest) with
    | some kv => kv.2 ++ replaceScan mapping fuel ((c :: rest).drop kv.1.length)
    | none => c :: replaceScan mapping fuel rest

/-- replace.py `multi_replace`: `re.compile("|".join(map(re.escape,
mapping.keys()))).sub(lambda m: mapping[m.group(0)], s)`.  An empty mapping
raises `KeyError` for every input string (see `ReplaceError.keyError`). -/
def multi_replace (s : List Char) (mapping : List (List Char × List Char)) :
    Except ReplaceError (List Char) :=
  if mapping.isEmpty then Except.error ReplaceError.keyError
  else Except.ok (replaceScan mapping s.length s)

/-! ### security.py -/

/-- Errors of `mask_email`: `ValueError` from unpacking `email.split("@")`
into two names when the split does not have exactly two parts, and
`IndexError` from `name[0]` when the local part is empty. -/
inductive EmailError where
  | valueError
  | indexError
deriving DecidableEq

/-- Python `str.split(sep)` for a one-character separator: split at every
occurrence, keeping empty parts. -/
def pySplit (sep : Char) : List Char → List (List Char)
  | [] => [[]]
  | c :: rest =>
    if c = sep then [] :: pySplit sep rest
    else
      match pySplit sep rest with
      | part :: parts => (c :: part) :: parts
      | [] => [[c]]

/-- security.py `mask_email`: `name, domain = email.split("@")` (ValueError
unless exactly two parts), then `name[0] + "***@" + domain` (IndexError if
the local part is empty). -/
def mask_email (email : List Char) : Except EmailError (List Char) :=
  match pySplit '@' email with
  | [name, domain] =>
    match name with
    | [] => Except.error EmailError.indexError
    | c :: _ => Except.ok (c :: '*' :: '*' :: '*' :: '@' :: domain)
  | _ => Except.error EmailError.valueError

/-- security.py `mask_phone`: `"*" * (len(phone) - 4) + phone[-4:]`.
Python's negative repeat count yields the empty string, matching truncated
subtraction on `ℕ`, and `phone[-4:]` is the whole string when the length is
at most 4, matching `drop (length - 4)`. -/
def mask_phone (phone : List Char) : List Char :=
  List.replicate (phone.length - 4) '*' ++ phone.drop (phone.length - 4)

/-! ### fuzzy.py

The similarity function is `round(SequenceMatcher(None, a, b).ratio(), 3)`.
`difflib.SequenceMatcher` with `isjunk=None` is embedded below: the `b2j`
index with the autojunk rule, `find_longest_match` (its dict loop and the
two non-junk extension loops; with `isjunk=None` the junk set is empty, so
the two junk extension loops of the source never iterate and the non-junk
extension conditions are always satisfied on the junk test), the recursive
block collection of `get_matching_blocks` (only the total matched size is
needed for the ratio), and the ratio `2 * matches / (len(a) + len(b))`
with the empty special case, computed in `ℚ`. -/

/-- The best match triple `(besti, bestj, bestsize)` of
`find_longest_match`. -/
structure BestMatch where
  besti : ℕ
  bestj : ℕ
  bestsize : ℕ
deriving DecidableEq

/-- The autojunk rule of `SequenceMatcher.__chain_b`: when `b` has at least
200 elements, elements occurring more than `len(b) // 100 + 1` times are
popular and are dropped from the `b2j` index. -/
def isPopular (b : List Char) (c : Char) : Bool :=
  decide (200 ≤ b.length) && decide (b.length / 100 + 1 < b.count c)

/-- The `b2j` index: for a non-popular character, the increasing list of
all its positions in `b`; for a popular character, the empty list. -/
def b2j (b : List Char) (c : Char) : List ℕ :=
  if isPopular b c then []
  else (List.range b.length).filter fun j => b.getD j ' ' == c

/-- The chain length `k = j2len.get(j-1, 0) + 1` computed at column `j`
from the previous row map `prev` (`j2len.get(-1, 0)` is 0, hence the guard
at `j = 0`). -/
def chainVal (prev : ℕ → ℕ) (j : ℕ) : ℕ :=
  (if j = 0 then 0 else prev (j - 1)) + 1

/-- The inner loop of `find_longest_match` over `b2j[a[i]]`: positions
below `blo` are skipped, the loop breaks at the first position at or above
`bhi`, and otherwise the chain length `chainVal prev j` is recorded in the
new row map and the best triple is updated when it exceeds the best size.
Python computes `besti = i - k + 1` in `ℤ`; here it is `i + 1 - k` in `ℕ`,
equal because the chain value `k` counts consecutive matching positions
ending at `(i, j)` and so never exceeds `min i j + 1`. -/
def innerLoop (blo bhi i : ℕ) (prev : ℕ → ℕ) :
    List ℕ → (ℕ → ℕ) → BestMatch → ((ℕ → ℕ) × BestMatch)
  | [], cur, best => (cur, best)
  | j :: js, cur, best =>
    if j < blo then innerLoop blo bhi i prev js cur best
    else if bhi ≤ j then (cur, best)
    else
      innerLoop blo bhi i prev js
        (fun x => if x = j then chainVal prev j else cur x)
        (if best.bestsize < chainVal prev j then
          BestMatch.mk (i + 1 - chainVal prev j) (j + 1 - chainVal prev j)
            (chainVal prev j)
        else best)

/-- The outer loop of `find_longest_match` over `i in range(alo, ahi)`:
each row starts from a fresh empty `newj2len` map and passes it to the next
row.  The second argument counts the remaining rows, `ahi - alo` at the
call site. -/
def dictLoop (a : List Char) (bj : Char → List ℕ) (blo bhi : ℕ) :
    ℕ → ℕ → (ℕ → ℕ) → BestMatch → BestMatch
  | _, 0, _, best => best
  | i, rows + 1, prev, best =>
    dictLoop a bj blo bhi (i + 1) rows
      (innerLoop blo bhi i prev (bj (a.getD i ' ')) (fun _ => 0) best).1
      (innerLoop blo bhi i prev (bj (a.getD i ' ')) (fun _ => 0) best).2

/-- The backward extension loop of `find_longest_match`: while
`besti > alo`, `bestj > blo` and `a[besti-1] == b[bestj-1]`, grow the match
one position to the left (with `isjunk=None` the junk test on `b[bestj-1]`
always passes).  Fuel `besti` bounds the iteration count: each step
decreases `besti` by one and the guard requires `besti > alo ≥ 0`. -/
def extendBack (a b : List Char) (alo blo : ℕ) :
    ℕ → ℕ → ℕ → ℕ → BestMatch
  | 0, besti, bestj, bestsize => ⟨besti, bestj, bestsize⟩
  | fuel + 1, besti, bestj, bestsize =>
    if alo < besti && blo < bestj &&
        (a.getD (besti - 1) ' ' == b.getD (bestj - 1) ' ') then
      extendBack a b alo blo fuel (besti - 1) (bestj - 1) (bestsize + 1)
    else ⟨besti, bestj, bestsize⟩

/-- The forward extension loop of `find_longest_match`: while
`besti + bestsize < ahi`, `bestj + bestsize < bhi` and
`a[besti+bestsize] == b[bestj+bestsize]`, grow the match to the right.
Fuel `ahi` bounds the iteration count. -/
def extendFwd (a b : List Char) (ahi bhi : ℕ) :
    ℕ → ℕ → ℕ → ℕ → BestMatch
  | 0, besti, bestj, bestsize => ⟨besti, bestj, bestsize⟩
  | fuel + 1, besti, bestj, bestsize =>
    if besti + bestsize < ahi && bestj + bestsize < bhi &&
        (a.getD (besti + bestsize) ' ' == b.getD (bestj + bestsize) ' ') then
      extendFwd a b ahi bhi fuel besti bestj (bestsize + 1)
    else ⟨besti, bestj, bestsize⟩

/-- The backward extension applied to the result of the dict loop (the
intermediate `best` triple between the two extension loops of
`find_longest_match`). -/
def dictThenBack (a b : List Char) (bj : Char → List ℕ)
    (alo ahi blo bhi : ℕ) : BestMatch :=
  extendBack a b alo blo
    (dictLoop a bj blo bhi alo (ahi - alo) (fun _ => 0) ⟨alo, blo, 0⟩).besti
    (dictLoop a bj blo bhi alo (ahi - alo) (fun _ => 0) ⟨alo, blo, 0⟩).besti
    (dictLoop a bj blo bhi alo (ahi - alo) (fun _ => 0) ⟨alo, blo, 0⟩).bestj
    (dictLoop a bj blo bhi alo (ahi - alo) (fun _ => 0) ⟨alo, blo, 0⟩).bestsize

/-- `SequenceMatcher.find_longest_match(alo, ahi, blo, bhi)` with
`isjunk=None`: the dict loop starting from best triple `(alo, blo, 0)`,
then the backward and forward extensions. -/
def find_longest_match (a b : List Char) (bj : Char → List ℕ)
    (alo ahi blo bhi : ℕ) : BestMatch :=
  extendFwd a b ahi bhi ahi
    (dictThenBack a b bj alo ahi blo bhi).besti
    (dictThenBack a b bj alo ahi blo bhi).bestj
    (dictThenBack a b bj alo ahi blo bhi).bestsize

/-- The total size of the matching blocks collected by
`get_matching_blocks`: the recursive splitting around each longest match
(a block is recorded when its size is nonzero, then the region to its left
and the region to its right are processed).  Only the sum of the block
sizes is needed by `ratio`, and sorting or merging adjacent blocks does not
change that sum.  Each recursive call strictly shrinks `ahi - alo`, so
fuel `len(a) + len(b) + 1` at the top level never runs out. -/
def matchedTotal (a b : List Char) (bj : Char → List ℕ) :
    ℕ → ℕ → ℕ → ℕ → ℕ → ℕ
  | 0, _, _, _, _ => 0
  | fuel + 1, alo, ahi, blo, bhi =>
    if (find_longest_match a b bj alo ahi blo bhi).bestsize = 0 then 0
    else
      (find_longest_match a b bj alo ahi blo bhi).bestsize
      + (if alo < (find_longest_match a b bj alo ahi blo bhi).besti &&
            blo < (find_longest_match a b bj alo ahi blo bhi).bestj then
           matchedTotal a b bj fuel alo
             (find_longest_match a b bj alo ahi blo bhi).besti blo
             (find_longest_match a b bj alo ahi blo bhi).bestj
         else 0)
      + (if (find_longest_match a b bj alo ahi blo bhi).besti +
              (find_longest_match a b bj alo ahi blo bhi).bestsize < ahi &&
            (find_longest_match a b bj alo ahi blo bhi).bestj +
              (find_longest_match a b bj alo ahi blo bhi).bestsize < bhi then
           matchedTotal a b bj fuel
             ((find_longest_match a b bj alo ahi blo bhi).besti +
               (find_longest_match a b bj alo ahi blo bhi).bestsize) ahi
             ((find_longest_match a b bj alo ahi blo bhi).bestj +
               (find_longest_match a b bj alo ahi blo bhi).bestsize) bhi
         else 0)

/-- `SequenceMatcher.ratio()`: `2 * matches / (len(a) + len(b))`, and 1.0
when both strings are empty (`_calculate_ratio`). -/
def ratioOf (a b : List Char) : ℚ :=
  if a.length + b.length = 0 then 1
  else
    mkRat
      (2 * matchedTotal a b (b2j b) (a.length + b.length + 1) 0 a.length 0
        b.length)
      (a.length + b.length)

/-- Python `round(x, 3)`: round to the nearest multiple of 1/1000, ties to
even.  With `scaled = 1000 * q` in lowest terms, the fractional part
`scaled - floor scaled` equals `fracNum / scaled.den`, so the comparisons
of the fractional part against one half are done on the integers
`2 * fracNum` and `scaled.den`. -/
def round3 (q : ℚ) : ℚ :=
  let scaled : ℚ := mkRat (1000 * q.num) q.den
  let f := scaled.floor
  let fracNum : ℤ := scaled.num - f * scaled.den
  let r :=
    if 2 * fracNum < (scaled.den : ℤ) then f
    else if (scaled.den : ℤ) < 2 * fracNum then f + 1
    else if f % 2 = 0 then f else f + 1
  mkRat r 1000

/-- fuzzy.py `similarity`: `round(SequenceMatcher(None, a, b).ratio(), 3)`. -/
def similarity (a b : List Char) : ℚ := round3 (ratioOf a b)

/-! ### Proof-layer definitions

`condChain` and `runLen` characterise the `j2len` chains of the dict loop
of `find_longest_match` when both sequences are the same string `a`:
`runLen a i j` is the value that row `i` of the loop stores at column `j`
(the length of the run of matching indexed positions ending at `(i, j)`),
and is zero when column `j` is not visited in row `i`. -/

/-- Column `j` is visited in row `i` of the dict loop on `(a, a)`:
`j` is a position of `a` holding the same character as position `i`, and
that character is indexed (not popular). -/
def condChain (a : List Char) (i j : ℕ) : Bool :=
  decide (j < a.length) && decide (i < a.length) &&
  (a.getD j ' ' == a.getD i ' ') && !(isPopular a (a.getD j ' '))

/-- The chain value stored at column `j` of row `i` of the dict loop on
`(a, a)` (zero when the column is not visited in that row). -/
def runLen (a : List Char) : ℕ → ℕ → ℕ
  | 0, j => if condChain a 0 j then 1 else 0
  | i + 1, 0 => if condChain a (i + 1) 0 then 1 else 0
  | i + 1, j + 1 =>
    if condChain a (i + 1) (j + 1) then runLen a i j + 1 else 0

/-- The row map passed into row `i` of the dict loop on `(a, a)`: the empty
map for the first row, and row `i - 1`'s chain values afterwards. -/
def prevSpec (a : List Char) (i : ℕ) : ℕ → ℕ :=
  fun j => if i = 0 then 0 else runLen a (i - 1) j

/-! ## Theorems -/

/-- Claim C1, counterexample.  The claim predicts that `toPascalCase` of a
separator-free token uppercases the first alphabetic character and
lowercases every subsequent character, so that a character after an
internal digit stays lowercase.  The source uses Python `str.title`, which
uppercases every letter that follows a non-letter: on `"a1b"` the code
produces `"A1B"` while the claim predicts `"A1b"`. -/
theorem to_pascal_after_digit_counterexample :
    to_pascal ['a', '1', 'b'] = ['A', '1', 'B'] ∧
    specTitle ['a', '1', 'b'] = ['A', '1', 'b'] ∧
    to_pascal ['a', '1', 'b'] ≠ specTitle ['a', '1', 'b'] :=
  ⟨by decide, by decide, by decide⟩

/-- Claim C1, amended.  Title-casing of a token is Python `str.title`:
each alphabetic character preceded by a non-alphabetic character (or at
the start) is uppercased, and each alphabetic character preceded by an
alphabetic character is lowercased.  Consequently, for every string with
no separator characters the whole string is a single token and
`toPascalCase` is exactly this title-casing; in particular `"API"`
title-cases to `"Api"`. -/
theorem to_pascal_single_token_title (s : List Char)
    (h : ∀ c ∈ s, isSepChar c = false) : to_pascal s = pyTitle s := by
  unfold to_pascal
  rw [List.splitOnP_eq_single]
  · simp
  · intro x hx
    simp [h x hx]

/-- Witness for the amended claim C1 at the token "API". -/
theorem to_pascal_single_token_title_witness :
    (∀ c ∈ ['A', 'P', 'I'], isSepChar c = false) ∧
      to_pascal ['A', 'P', 'I'] = pyTitle ['A', 'P', 'I'] :=
  ⟨by decide, to_pascal_single_token_title ['A', 'P', 'I'] (by decide)⟩

/-- Claim C2.  The tokenizer regex is `[_\-\s]`, and `\s` matches every
whitespace character, not only the space: on `"a\tb"`, which contains none
of `'_'`, `'-'`, `' '`, the code splits at the tab and yields `"aB"`,
whereas the claim predicts the single lowercased token `"a\tb"`.  This
also contradicts the source docstring, which lists the recognised
separators as underscores, hyphens and spaces only. -/
theorem to_camel_splits_on_tab :
    to_camel ['a', '\t', 'b'] = ['a', 'B'] ∧
    to_camel ['a', '\t', 'b'] ≠ ['a', '\t', 'b'].map pyLower :=
  ⟨by decide, by decide⟩

/-- Claim C5.  `similarity` is not symmetric: `SequenceMatcher` indexes
only its second argument, and its longest-match tie-breaking depends on
the argument order, so the matched totals can differ.  On the pair
`("ab", "bacb")` the code returns 0.667 one way and 0.333 the other. -/
theorem similarity_not_symmetric :
    similarity "ab".toList "bacb".toList = mkRat 667 1000 ∧
    similarity "bacb".toList "ab".toList = mkRat 333 1000 ∧
    similarity "ab".toList "bacb".toList ≠ similarity "bacb".toList "ab".toList :=
  ⟨by decide, by decide, by decide⟩

/-- Claim C6.  For every input string, `multiReplace` with an empty
mapping raises (the compiled empty pattern matches the empty string at
position 0 and the replacement callback looks the empty match up in the
empty dict, raising `KeyError`) instead of returning the input
unchanged. -/
theorem multi_replace_empty_mapping (s : List Char) :
    multi_replace s [] = Except.error ReplaceError.keyError := rfl

/-- Claim C7.  The left-to-right, non-overlapping, first-alternative scan
of `multiReplace` on the claim's two witnesses: `"ab"` matches at position
0 of `"abc"` so the scan yields `"cdc"`, and the replacement value `"b"`
produced for `"a"` is not rescanned, so no cascading `"b" -> "c"`
replacement happens. -/
theorem multi_replace_scan_examples :
    multi_replace "abc".toList [("ab".toList, "cd".toList)] =
      Except.ok "cdc".toList ∧
    multi_replace "a".toList [("a".toList, "b".toList), ("b".toList, "c".toList)] =
      Except.ok "b".toList :=
  ⟨rfl, rfl⟩

/-- Claim C9.  `maskPhone` keeps the length, preserves the last four
characters when the input has at least four, returns short inputs
unchanged, and equals asterisk-padding of the final `min 4 length`
characters, for arbitrary character content. -/
theorem mask_phone_spec (p : List Char) :
    (mask_phone p).length = p.length ∧
    (4 ≤ p.length → (mask_phone p).drop (p.length - 4) = p.drop (p.length - 4)) ∧
    (p.length ≤ 4 → mask_phone p = p) ∧
    mask_phone p = List.replicate (max 0 (p.length - 4)) '*' ++
      p.drop (p.length - min 4 p.length) := by
  refine ⟨?_, ?_, ?_, ?_⟩
  · simp only [mask_phone, List.length_append, List.length_replicate,
      List.length_drop]
    omega
  · intro h
    rw [mask_phone]
    exact List.drop_left' (by simp)
  · intro h
    have h0 : p.length - 4 = 0 := by omega
    simp [mask_phone, h0]
  · have h1 : max 0 (p.length - 4) = p.length - 4 := by omega
    have h2 : p.length - min 4 p.length = p.length - 4 := by omega
    rw [mask_phone, h1, h2]

/-- Witness for claim C9 at a length-4 input, which discharges both
conditional clauses. -/
theorem mask_phone_spec_witness :
    (mask_phone "1234".toList).drop ("1234".toList.length - 4) =
      "1234".toList.drop ("1234".toList.length - 4) ∧
    mask_phone "1234".toList = "1234".toList :=
  ⟨(mask_phone_spec "1234".toList).2.1 (by decide),
   (mask_phone_spec "1234".toList).2.2.1 (by decide)⟩

/-! ### Lemmas for claim C10 -/

lemma subPassA_eq_self (fuel : ℕ) :
    ∀ l : List Char, (∀ c ∈ l, isUpperAZ c = false) → subPassA fuel l = l := by
  induction fuel with
  | zero => intro l _; rfl
  | succ fuel ih =>
    intro l h
    match l with
    | [] => rfl
    | [c1] =>
      by_cases h1 : c1 = '\n'
      · simp [subPassA, h1, ih]
      · simp [subPassA, h1]
    | c1 :: c2 :: rest2 =>
      have h2 : isUpperAZ c2 = false := h c2 (by simp)
      have hrec := ih (c2 :: rest2) fun c hc => h c (List.mem_cons_of_mem _ hc)
      by_cases h1 : c1 = '\n'
      · simp [subPassA, h1, hrec]
      · simp [subPassA, h1, h2, hrec]

lemma subPassB_eq_self (fuel : ℕ) :
    ∀ l : List Char, (∀ c ∈ l, isUpperAZ c = false) → subPassB fuel l = l := by
  induction fuel with
  | zero => intro l _; rfl
  | succ fuel ih =>
    intro l h
    match l with
    | [] => rfl
    | [c1] => rfl
    | c1 :: c2 :: rest2 =>
      have h2 : isUpperAZ c2 = false := h c2 (by simp)
      have hrec := ih (c2 :: rest2) fun c hc => h c (List.mem_cons_of_mem _ hc)
      simp [subPassB, h2, hrec]

lemma pyLower_eq_self_of_ascii {c : Char} (h1 : c.toNat < 128)
    (h2 : isUpperAZ c = false) : pyLower c = c := by
  have hd : c ≠ 'ǅ' := fun he => absurd h1 (by rw [he]; decide)
  have hl : c ≠ 'ǈ' := fun he => absurd h1 (by rw [he]; decide)
  have hn : c ≠ 'ǋ' := fun he => absurd h1 (by rw [he]; decide)
  have hz : c ≠ 'ǲ' := fun he => absurd h1 (by rw [he]; decide)
  rw [pyLower, if_neg (by simp [h2]), if_neg hd, if_neg hl, if_neg hn,
    if_neg hz]

/-- Claim C10, counterexample.  The character at code point U+01C5 is a
titlecase letter (Unicode category Lt; Python isupper() is False), so a
string containing it has no uppercase letter and no space, yet the final
`str.lower` of `to_snake` still changes it to its lowercase form U+01C6:
the claim's "unchanged" conclusion fails. -/
theorem to_snake_titlecase_counterexample :
    to_snake ['ǅ'] = ['ǆ'] ∧ to_snake ['ǅ'] ≠ ['ǅ'] ∧
    isUpperAZ 'ǅ' = false ∧ 'ǅ' ≠ ' ' :=
  ⟨by decide, by decide, by decide, by decide⟩

/-- Claim C10, amended.  `toSnakeCase` never rewrites hyphens: on any
string of ASCII characters with no uppercase letter and no space character
(in particular any ASCII kebab-case string), both case-boundary regexes
fail to match, the space replacement finds nothing, and lowercasing is the
identity, so the string passes through unchanged with its hyphens intact.
(The ASCII restriction is forced by the counterexample: a non-ASCII
titlecase letter is not an uppercase letter but is still lowercased.) -/
theorem to_snake_preserves_hyphens (s : List Char)
    (h : ∀ c ∈ s, c.toNat < 128 ∧ isUpperAZ c = false ∧ c ≠ ' ') :
    to_snake s = s := by
  have hup : ∀ c ∈ s, isUpperAZ c = false := fun c hc => (h c hc).2.1
  show ((subPassB (subPassA s.length s).length (subPassA s.length s)).map
      fun c => if c = ' ' then '_' else c).map pyLower = s
  rw [subPassA_eq_self s.length s hup, subPassB_eq_self s.length s hup]
  have : ∀ t : List Char,
      (∀ c ∈ t, c.toNat < 128 ∧ isUpperAZ c = false ∧ c ≠ ' ') →
      (t.map fun c => if c = ' ' then '_' else c).map pyLower = t := by
    intro t ht
    induction t with
    | nil => rfl
    | cons c rest ih =>
      have hc := ht c (List.mem_cons_self c rest)
      simp only [List.map_cons, if_neg hc.2.2, List.cons.injEq]
      refine ⟨pyLower_eq_self_of_ascii hc.1 hc.2.1, ?_⟩
      exact ih fun x hx => ht x (List.mem_cons_of_mem _ hx)
  exact this s h

/-- Witness for the amended claim C10 at the kebab-case input "foo-bar". -/
theorem to_snake_preserves_hyphens_witness :
    (∀ c ∈ "foo-bar".toList, c.toNat < 128 ∧ isUpperAZ c = false ∧ c ≠ ' ') ∧
      to_snake "foo-bar".toList = "foo-bar".toList :=
  ⟨by decide, to_snake_preserves_hyphens "foo-bar".toList (by decide)⟩

/-! ### Lemmas for claim C8 -/

lemma pySplit_ne_nil (sep : Char) (l : List Char) : pySplit sep l ≠ [] := by
  induction l with
  | nil => simp [pySplit]
  | cons c rest ih =>
    simp only [pySplit]
    split
    · simp
    · split
      · simp
      · next hr => exact absurd hr ih

lemma pySplit_length (sep : Char) (l : List Char) :
    (pySplit sep l).length = l.count sep + 1 := by
  induction l with
  | nil => simp [pySplit]
  | cons c rest ih =>
    by_cases h : c = sep
    · subst h
      simp [pySplit, List.count_cons, ih]
    · obtain ⟨part, parts, hpp⟩ :=
        List.exists_cons_of_ne_nil (pySplit_ne_nil sep rest)
      simp only [pySplit, if_neg h, hpp]
      rw [hpp] at ih
      simp only [List.length_cons] at ih ⊢
      have hne : (c == sep) = false := by simp [h]
      simp [List.count_cons, hne, ih]

lemma pySplit_no_sep (sep : Char) (l : List Char) (h : sep ∉ l) :
    pySplit sep l = [l] := by
  induction l with
  | nil => rfl
  | cons c rest ih =>
    have hc : ¬(c = sep) := fun he => h (he ▸ List.mem_cons_self c rest)
    simp only [pySplit, if_neg hc]
    rw [ih fun hm => h (List.mem_cons_of_mem _ hm)]

lemma pySplit_append (sep : Char) (name rest : List Char) (h : sep ∉ name) :
    pySplit sep (name ++ sep :: rest) = name :: pySplit sep rest := by
  induction name with
  | nil => simp [pySplit]
  | cons c nm ih =>
    have hc : ¬(c = sep) := fun he => h (he ▸ List.mem_cons_self c nm)
    simp only [List.cons_append, pySplit, if_neg hc, List.append_eq]
    rw [ih fun hm => h (List.mem_cons_of_mem _ hm)]

/-- Claim C8.  `maskEmail` fails with `ValueError` exactly when the number
of `'@'` characters differs from one, and with exactly one `'@'` and a
nonempty local part it returns the first local character, `"***@"`, and
the unmodified domain. -/
theorem mask_email_spec (e : List Char) :
    (mask_email e = Except.error EmailError.valueError ↔ e.count '@' ≠ 1) ∧
    (∀ c name domain, e = (c :: name) ++ '@' :: domain →
      '@' ∉ c :: name → '@' ∉ domain →
      mask_email e = Except.ok (c :: '*' :: '*' :: '*' :: '@' :: domain)) := by
  constructor
  · have hlen := pySplit_length '@' e
    unfold mask_email
    match hps : pySplit '@' e with
    | [] => exact absurd hps (pySplit_ne_nil '@' e)
    | [x] =>
      rw [hps] at hlen
      simp only [List.length_cons, List.length_nil] at hlen
      constructor
      · intro _; omega
      · intro _; rfl
    | [x, y] =>
      rw [hps] at hlen
      simp only [List.length_cons, List.length_nil] at hlen
      constructor
      · intro herr
        cases x with
        | nil => simp at herr
        | cons c cs => simp at herr
      · intro hcount
        exact absurd (by omega : e.count '@' = 1) hcount
    | x :: y :: z :: tl =>
      rw [hps] at hlen
      simp only [List.length_cons] at hlen
      constructor
      · intro _; omega
      · intro _; rfl
  · rintro c name domain rfl h1 h2
    unfold mask_email
    rw [pySplit_append '@' (c :: name) domain h1, pySplit_no_sep '@' domain h2]

/-- Witness for claim C8 at the claim's example email address. -/
theorem mask_email_spec_witness :
    mask_email "j@example.com".toList =
      Except.ok ('j' :: '*' :: '*' :: '*' :: '@' :: "example.com".toList) :=
  (mask_email_spec "j@example.com".toList).2 'j' [] "example.com".toList
    (by decide) (by decide) (by decide)

/-! ### Lemmas for claim C3 -/

lemma collapseNonSlug_chars :
    ∀ (b : Bool) (l : List Char), ∀ c ∈ collapseNonSlug b l,
      (isSlugChar c || c == '-') = true := by
  intro b l
  induction l generalizing b with
  | nil => intro c hc; simp [collapseNonSlug] at hc
  | cons x rest ih =>
    intro c hc
    by_cases hx : isSlugChar x
    · rw [collapseNonSlug, if_pos hx] at hc
      rcases List.mem_cons.mp hc with h | h
      · simp [h, hx]
      · exact ih false c h
    · rw [collapseNonSlug, if_neg hx] at hc
      by_cases hb : b = true
      · rw [hb, if_pos rfl] at hc
        exact ih true c hc
      · rw [if_neg hb] at hc
        rcases List.mem_cons.mp hc with h | h
        · simp [h]
        · exact ih true c h

lemma collapseNonSlug_true_head :
    ∀ (l : List Char) (c : Char),
      (collapseNonSlug true l).head? = some c → isSlugChar c = true := by
  intro l
  induction l with
  | nil => intro c hc; simp [collapseNonSlug] at hc
  | cons x rest ih =>
    intro c hc
    by_cases hx : isSlugChar x
    · rw [collapseNonSlug, if_pos hx] at hc
      simp only [List.head?_cons, Option.some.injEq] at hc
      exact hc ▸ hx
    · rw [collapseNonSlug, if_neg hx, if_pos rfl] at hc
      exact ih c hc

lemma collapseNonSlug_noDoubleDash :
    ∀ (b : Bool) (l : List Char),
      noDoubleDash (collapseNonSlug b l) = true := by
  intro b l
  induction l generalizing b with
  | nil => rfl
  | cons x rest ih =>
    by_cases hx : isSlugChar x
    · rw [collapseNonSlug, if_pos hx]
      have hxd : (x == '-') = false := by
        cases hbe : x == '-'
        · rfl
        · rw [show x = '-' from beq_iff_eq.mp hbe] at hx
          exact absurd (by decide : isSlugChar '-' = false) (by simpa using hx)
      simp only [noDoubleDash, hxd, Bool.false_and, Bool.not_false,
        Bool.true_and]
      exact ih false
    · rw [collapseNonSlug, if_neg hx]
      by_cases hb : b = true
      · rw [hb, if_pos rfl]
        exact ih true
      · rw [if_neg hb]
        simp only [noDoubleDash, Bool.and_eq_true]
        refine ⟨?_, ih true⟩
        cases hh : (collapseNonSlug true rest).head? with
        | none => simp [hh]
        | some c =>
          have hcslug := collapseNonSlug_true_head rest c hh
          have hcd : (c == '-') = false := by
            cases hbe : c == '-'
            · rfl
            · rw [show c = '-' from beq_iff_eq.mp hbe] at hcslug
              exact absurd hcslug (by decide)
          simp [hh, hcd]

lemma noDoubleDash_dropWhile (p : Char → Bool) :
    ∀ l : List Char, noDoubleDash l = true →
      noDoubleDash (l.dropWhile p) = true := by
  intro l h
  induction l with
  | nil => simpa using h
  | cons c rest ih =>
    rw [List.dropWhile_cons]
    simp only [noDoubleDash, Bool.and_eq_true] at h
    split
    · exact ih h.2
    · simp only [noDoubleDash, Bool.and_eq_true]
      exact h

lemma head_dropWhile_false (p : Char → Bool) :
    ∀ (l : List Char) (c : Char), (l.dropWhile p).head? = some c →
      p c = false := by
  intro l
  induction l with
  | nil => intro c hc; simp at hc
  | cons x rest ih =>
    intro c hc
    rw [List.dropWhile_cons] at hc
    by_cases hx : p x = true
    · rw [if_pos hx] at hc
      exact ih c hc
    · rw [if_neg hx] at hc
      simp only [List.head?_cons, Option.some.injEq] at hc
      rw [← hc]
      exact Bool.not_eq_true _ |>.mp hx

lemma dropTrailingDash_subset :
    ∀ (l : List Char), ∀ c ∈ dropTrailingDash l, c ∈ l := by
  intro l
  induction l with
  | nil => intro c hc; simp [dropTrailingDash] at hc
  | cons x rest ih =>
    intro c hc
    rw [dropTrailingDash] at hc
    rcases hd : dropTrailingDash rest with _ | ⟨y, ys⟩
    · rw [hd] at hc
      by_cases hx : x = '-'
      · rw [if_pos hx] at hc
        simp at hc
      · rw [if_neg hx] at hc
        simp only [List.mem_singleton] at hc
        simp [hc]
    · rw [hd] at hc
      rcases List.mem_cons.mp hc with h | h
      · simp [h]
      · exact List.mem_cons_of_mem _ (ih c (hd ▸ h))

lemma dropTrailingDash_head :
    ∀ l : List Char, dropTrailingDash l ≠ [] →
      (dropTrailingDash l).head? = l.head? := by
  intro l hne
  match l with
  | [] => rfl
  | x :: rest =>
    rcases hd : dropTrailingDash rest with _ | ⟨y, ys⟩ <;>
      simp only [dropTrailingDash, hd] at hne ⊢
    · by_cases hx : x = '-'
      · rw [if_pos hx] at hne
        exact absurd rfl hne
      · rw [if_neg hx]
        rfl
    · rfl

lemma dropTrailingDash_last :
    ∀ (l : List Char) (c : Char),
      (dropTrailingDash l).getLast? = some c → (c == '-') = false := by
  intro l
  induction l with
  | nil => intro c hc; simp [dropTrailingDash] at hc
  | cons x rest ih =>
    intro c hc
    rw [dropTrailingDash] at hc
    rcases hd : dropTrailingDash rest with _ | ⟨y, ys⟩
    · rw [hd] at hc
      by_cases hx : x = '-'
      · rw [if_pos hx] at hc
        simp at hc
      · rw [if_neg hx] at hc
        simp only [List.getLast?_singleton, Option.some.injEq] at hc
        simp [← hc, hx]
    · rw [hd] at hc
      rw [List.getLast?_cons_cons] at hc
      exact ih c (hd ▸ hc)

lemma dropTrailingDash_noDoubleDash :
    ∀ l : List Char, noDoubleDash l = true →
      noDoubleDash (dropTrailingDash l) = true := by
  intro l
  induction l with
  | nil => intro h; exact h
  | cons x rest ih =>
    intro h
    simp only [noDoubleDash, Bool.and_eq_true] at h
    rw [dropTrailingDash]
    rcases hd : dropTrailingDash rest with _ | ⟨y, ys⟩
    · by_cases hx : x = '-'
      · rw [if_pos hx]; rfl
      · rw [if_neg hx]
        simp [noDoubleDash]
    · have hne : dropTrailingDash rest ≠ [] := by rw [hd]; simp
      have hhead := dropTrailingDash_head rest hne
      rw [hd] at hhead
      simp only [noDoubleDash, Bool.and_eq_true]
      constructor
      · have hry : rest.head? = some y := by
          simpa using hhead.symm
        rw [hry] at h
        simpa using h.1
      · have := ih h.2
        rw [hd] at this
        simpa [noDoubleDash, Bool.and_eq_true] using this

/-- Claim C3.  For every input (and every behaviour of the abstract
cleaning pipeline), the output of `slugify` is either empty or lies in the
language of `[a-z0-9]+(-[a-z0-9]+)*`: only lowercase ASCII alphanumerics
and single internal hyphens, with no hyphen at either end. -/
theorem slugify_shape (clean : List Char → List Char) (s : List Char) :
    slugify clean s = [] ∨ validSlug (slugify clean s) = true := by
  rw [slugify, pyStripDash]
  by_cases hne :
      dropTrailingDash ((collapseNonSlug false ((clean s).map pyLower)).dropWhile
        fun c => c == '-') = []
  · exact Or.inl hne
  right
  obtain ⟨c0, l0, hw0⟩ := List.exists_cons_of_ne_nil hne
  have hchars : ∀ c ∈ dropTrailingDash ((collapseNonSlug false
      ((clean s).map pyLower)).dropWhile fun c => c == '-'),
      (isSlugChar c || c == '-') = true := fun c hc =>
    collapseNonSlug_chars false _ c
      (List.dropWhile_subset _ (dropTrailingDash_subset _ c hc))
  have hnoAdj := dropTrailingDash_noDoubleDash _
    (noDoubleDash_dropWhile (fun c => c == '-') _
      (collapseNonSlug_noDoubleDash false ((clean s).map pyLower)))
  have hheadv := dropTrailingDash_head _ hne
  rw [hw0] at hchars hnoAdj hheadv ⊢
  have hc0v : ((collapseNonSlug false ((clean s).map pyLower)).dropWhile
      fun c => c == '-').head? = some c0 := by
    rw [← hheadv]; rfl
  have hc0dash : (c0 == '-') = false := head_dropWhile_false _ _ c0 hc0v
  have hc0slug : isSlugChar c0 = true := by
    have := hchars c0 (List.mem_cons_self c0 l0)
    simpa [hc0dash] using this
  have hlastslug : isSlugChar ((c0 :: l0).getLast (by simp)) = true := by
    have hgl : (c0 :: l0).getLast? = some ((c0 :: l0).getLast (by simp)) :=
      List.getLast?_eq_getLast _ _
    have hdash : ((c0 :: l0).getLast (by simp) == '-') = false := by
      apply dropTrailingDash_last ((collapseNonSlug false
        ((clean s).map pyLower)).dropWhile fun c => c == '-')
      rw [hw0]
      exact hgl
    have := hchars _ (List.getLast_mem (l := c0 :: l0) (by simp))
    simpa [hdash] using this
  rw [validSlug]
  simp only [Bool.and_eq_true]
  refine ⟨⟨⟨⟨?_, ?_⟩, ?_⟩, ?_⟩, hnoAdj⟩
  · simp
  · rw [List.all_eq_true]
    exact hchars
  · simp only [List.head?_cons]
    exact hc0slug
  · rw [List.getLast?_eq_getLast _ (by simp)]
    exact hlastslug

/-! ### Lemmas for claim C4

The reflexivity proof shows that on the pair `(a, a)` with the full window
the dict loop only ever records a best triple on the diagonal
(`besti = bestj`): a chain ending at `(i, j)` with `j` of a different
index always has a diagonal chain at least as long that is scanned no
later, and the strict comparison `k > bestsize` therefore never fires off
the diagonal.  A diagonal best then extends to the whole window in the two
extension loops, so `find_longest_match` matches everything and the ratio
is exactly 1. -/

lemma condChain_elim (a : List Char) {i j : ℕ} (h : condChain a i j = true) :
    j < a.length ∧ i < a.length ∧ a.getD j ' ' = a.getD i ' ' ∧
      isPopular a (a.getD j ' ') = false := by
  simp only [condChain, Bool.and_eq_true, decide_eq_true_eq, beq_iff_eq,
    Bool.not_eq_true'] at h
  exact ⟨h.1.1.1, h.1.1.2, h.1.2, h.2⟩

lemma condChain_intro (a : List Char) {i j : ℕ} (h1 : j < a.length)
    (h2 : i < a.length) (h3 : a.getD j ' ' = a.getD i ' ')
    (h4 : isPopular a (a.getD j ' ') = false) : condChain a i j = true := by
  simp only [condChain, Bool.and_eq_true, decide_eq_true_eq, beq_iff_eq,
    Bool.not_eq_true']
  exact ⟨⟨⟨h1, h2⟩, h3⟩, h4⟩

lemma condChain_diag_left (a : List Char) {i j : ℕ}
    (h : condChain a i j = true) : condChain a i i = true := by
  obtain ⟨_, h2, h3, h4⟩ := condChain_elim a h
  exact condChain_intro a h2 h2 rfl (h3 ▸ h4)

lemma condChain_diag_right (a : List Char) {i j : ℕ}
    (h : condChain a i j = true) : condChain a j j = true := by
  obtain ⟨h1, _, _, h4⟩ := condChain_elim a h
  exact condChain_intro a h1 h1 rfl h4

lemma runLen_eq_zero_of_not_cond (a : List Char) {i j : ℕ}
    (h : condChain a i j = false) : runLen a i j = 0 := by
  match i, j with
  | 0, j => simp [runLen, h]
  | i + 1, 0 => simp [runLen, h]
  | i + 1, j + 1 => simp [runLen, h]

lemma runLen_base (a : List Char) {i j : ℕ} (h : condChain a i j = true)
    (h0 : i = 0 ∨ j = 0) : runLen a i j = 1 := by
  match i, j with
  | 0, j => simp [runLen, h]
  | i + 1, 0 => simp [runLen, h]
  | i + 1, j + 1 => omega

lemma runLen_succ (a : List Char) {i j : ℕ}
    (h : condChain a (i + 1) (j + 1) = true) :
    runLen a (i + 1) (j + 1) = runLen a i j + 1 := by
  simp [runLen, h]

lemma runLen_le_left (a : List Char) : ∀ i j, runLen a i j ≤ i + 1 := by
  intro i
  induction i with
  | zero =>
    intro j
    rw [runLen]
    split <;> omega
  | succ i0 ih =>
    intro j
    match j with
    | 0 => rw [runLen]; split <;> omega
    | j0 + 1 =>
      rw [runLen]
      split
      · have := ih j0; omega
      · omega

lemma runLen_le_diag_left (a : List Char) :
    ∀ i j, runLen a i j ≤ runLen a i i := by
  intro i
  induction i with
  | zero =>
    intro j
    by_cases h : condChain a 0 j = true
    · rw [runLen_base a h (Or.inl rfl),
        runLen_base a (condChain_diag_left a h) (Or.inl rfl)]
    · rw [runLen_eq_zero_of_not_cond a (Bool.not_eq_true _ |>.mp h)]
      omega
  | succ i0 ih =>
    intro j
    match j with
    | 0 =>
      by_cases h : condChain a (i0 + 1) 0 = true
      · rw [runLen_base a h (Or.inr rfl),
          runLen_succ a (condChain_diag_left a h)]
        omega
      · rw [runLen_eq_zero_of_not_cond a (Bool.not_eq_true _ |>.mp h)]
        omega
    | j0 + 1 =>
      by_cases h : condChain a (i0 + 1) (j0 + 1) = true
      · rw [runLen_succ a h, runLen_succ a (condChain_diag_left a h)]
        have := ih j0
        omega
      · rw [runLen_eq_zero_of_not_cond a (Bool.not_eq_true _ |>.mp h)]
        omega

lemma runLen_le_diag_right (a : List Char) :
    ∀ j i, runLen a i j ≤ runLen a j j := by
  intro j
  induction j with
  | zero =>
    intro i
    by_cases h : condChain a i 0 = true
    · rw [runLen_base a h (Or.inr rfl),
        runLen_base a (condChain_diag_right a h) (Or.inl rfl)]
    · rw [runLen_eq_zero_of_not_cond a (Bool.not_eq_true _ |>.mp h)]
      omega
  | succ j0 ih =>
    intro i
    match i with
    | 0 =>
      by_cases h : condChain a 0 (j0 + 1) = true
      · rw [runLen_base a h (Or.inl rfl),
          runLen_succ a (condChain_diag_right a h)]
        omega
      · rw [runLen_eq_zero_of_not_cond a (Bool.not_eq_true _ |>.mp h)]
        omega
    | i0 + 1 =>
      by_cases h : condChain a (i0 + 1) (j0 + 1) = true
      · rw [runLen_succ a h, runLen_succ a (condChain_diag_right a h)]
        have := ih i0
        omega
      · rw [runLen_eq_zero_of_not_cond a (Bool.not_eq_true _ |>.mp h)]
        omega

lemma mem_b2j_iff (b : List Char) (c : Char) (j : ℕ) :
    j ∈ b2j b c ↔
      isPopular b c = false ∧ j < b.length ∧ b.getD j ' ' = c := by
  rw [b2j]
  by_cases hp : isPopular b c = true
  · simp [hp]
  · simp only [Bool.not_eq_true] at hp
    simp [hp, List.mem_filter, List.mem_range]

lemma condChain_iff_mem (a : List Char) {i : ℕ} (hi : i < a.length)
    (j : ℕ) : condChain a i j = true ↔ j ∈ b2j a (a.getD i ' ') := by
  rw [mem_b2j_iff]
  constructor
  · intro h
    obtain ⟨h1, _, h3, h4⟩ := condChain_elim a h
    exact ⟨h3 ▸ h4, h1, h3⟩
  · rintro ⟨h4, h1, h3⟩
    exact condChain_intro a h1 hi h3 (h3.symm ▸ h4)

lemma b2j_pairwise (b : List Char) (c : Char) :
    (b2j b c).Pairwise (· < ·) := by
  rw [b2j]
  split
  · exact List.Pairwise.nil
  · exact (List.pairwise_lt_range _).filter _

lemma innerLoop_invariant (a : List Char) (i : ℕ) (hi : i < a.length)
    (prev : ℕ → ℕ) (hprev : ∀ j, prev j = prevSpec a i j) :
    ∀ (js : List ℕ) (cur : ℕ → ℕ) (best : BestMatch),
      (∀ j ∈ js, j ∈ b2j a (a.getD i ' ')) →
      js.Pairwise (· < ·) →
      (∀ j, cur j = if j ∈ js then 0 else runLen a i j) →
      best.besti = best.bestj →
      best.bestj + best.bestsize ≤ a.length →
      (∀ r, r < i → runLen a r r ≤ best.bestsize) →
      (i ∈ js ∨ runLen a i i ≤ best.bestsize) →
      (∀ j, (innerLoop 0 a.length i prev js cur best).1 j = runLen a i j) ∧
      (innerLoop 0 a.length i prev js cur best).2.besti =
        (innerLoop 0 a.length i prev js cur best).2.bestj ∧
      (innerLoop 0 a.length i prev js cur best).2.bestj +
        (innerLoop 0 a.length i prev js cur best).2.bestsize ≤ a.length ∧
      (∀ r, r ≤ i →
        runLen a r r ≤ (innerLoop 0 a.length i prev js cur best).2.bestsize) := by
  intro js
  induction js with
  | nil =>
    intro cur best _ _ hmap hdiag hbound hI2 hmem
    rw [innerLoop]
    refine ⟨?_, hdiag, hbound, ?_⟩
    · intro j
      simpa using hmap j
    · intro r hr
      rcases Nat.lt_or_ge r i with h | h
      · exact hI2 r h
      · have hri : r = i := le_antisymm hr h
        subst hri
        rcases hmem with h | h
        · simp at h
        · exact h
  | cons j js ih =>
    intro cur best hsub hsort hmap hdiag hbound hI2 hmem
    obtain ⟨hlt, hsort2⟩ := List.pairwise_cons.mp hsort
    have hjmem := hsub j (List.mem_cons_self j js)
    have hcond : condChain a i j = true := (condChain_iff_mem a hi j).mpr hjmem
    have hjn : j < a.length := ((mem_b2j_iff a _ j).mp hjmem).2.1
    have hkv : chainVal prev j = runLen a i j := by
      rcases j with _ | j0
      · rw [chainVal, if_pos rfl]
        exact (runLen_base a hcond (Or.inr rfl)).symm
      · rw [chainVal, if_neg (Nat.succ_ne_zero j0)]
        show prev j0 + 1 = runLen a i (j0 + 1)
        rw [hprev j0, prevSpec]
        rcases i with _ | i0
        · rw [if_pos rfl]
          exact (runLen_base a hcond (Or.inl rfl)).symm
        · rw [if_neg (Nat.succ_ne_zero i0)]
          show runLen a i0 j0 + 1 = runLen a (i0 + 1) (j0 + 1)
          exact (runLen_succ a hcond).symm
    rw [innerLoop, if_neg (Nat.not_lt_zero j), if_neg (by omega : ¬ a.length ≤ j)]
    have hjnotmem : j ∉ js := fun hmemj => absurd (hlt j hmemj) (lt_irrefl j)
    have hmap2 : ∀ x, (fun y => if y = j then chainVal prev j else cur y) x =
        if x ∈ js then 0 else runLen a i x := by
      intro x
      show (if x = j then chainVal prev j else cur x) =
        if x ∈ js then 0 else runLen a i x
      by_cases hx : x = j
      · subst hx
        rw [if_pos rfl, if_neg hjnotmem, hkv]
      · rw [if_neg hx, hmap x]
        by_cases hxj : x ∈ js
        · rw [if_pos (List.mem_cons_of_mem _ hxj), if_pos hxj]
        · rw [if_neg (by simp [hx, hxj]), if_neg hxj]
    rcases Nat.lt_trichotomy j i with hji | hji | hji
    · -- a column left of the diagonal: its diagonal row was already best
      have hle : runLen a i j ≤ best.bestsize :=
        le_trans (runLen_le_diag_right a j i) (hI2 j hji)
      rw [if_neg (by rw [hkv]; omega : ¬ best.bestsize < chainVal prev j)]
      refine ih _ _ (fun x hx => hsub x (List.mem_cons_of_mem _ hx)) hsort2
        hmap2 hdiag hbound hI2 ?_
      rcases hmem with h | h
      · rcases List.mem_cons.mp h with h0 | h0
        · omega
        · exact Or.inl h0
      · exact Or.inr h
    · -- the diagonal column itself
      subst hji
      by_cases hupd : best.bestsize < chainVal prev j
      · rw [if_pos hupd]
        have hk1 : chainVal prev j ≤ j + 1 := by
          rw [hkv]; exact runLen_le_left a j j
        refine ih _ _ (fun x hx => hsub x (List.mem_cons_of_mem _ hx)) hsort2
          hmap2 rfl (by simp only; omega) ?_ ?_
        · intro r hr
          simp only
          have := hI2 r hr
          omega
        · right
          simp only
          rw [← hkv]
      · rw [if_neg hupd]
        refine ih _ _ (fun x hx => hsub x (List.mem_cons_of_mem _ hx)) hsort2
          hmap2 hdiag hbound hI2 ?_
        right
        rw [← hkv]
        omega
    · -- a column right of the diagonal: the diagonal was scanned earlier
      -- in this row, so the best size already dominates
      have hbs : runLen a i i ≤ best.bestsize := by
        rcases hmem with h | h
        · rcases List.mem_cons.mp h with h0 | h0
          · omega
          · exact absurd (hlt i h0) (by omega)
        · exact h
      have hle : runLen a i j ≤ best.bestsize :=
        le_trans (runLen_le_diag_left a i j) hbs
      rw [if_neg (by rw [hkv]; omega : ¬ best.bestsize < chainVal prev j)]
      exact ih _ _ (fun x hx => hsub x (List.mem_cons_of_mem _ hx)) hsort2
        hmap2 hdiag hbound hI2 (Or.inr hbs)

lemma dictLoop_invariant (a : List Char) :
    ∀ (rows i : ℕ) (prev : ℕ → ℕ) (best : BestMatch),
      i + rows = a.length →
      (∀ j, prev j = prevSpec a i j) →
      best.besti = best.bestj →
      best.bestj + best.bestsize ≤ a.length →
      (∀ r, r < i → runLen a r r ≤ best.bestsize) →
      (dictLoop a (b2j a) 0 a.length i rows prev best).besti =
        (dictLoop a (b2j a) 0 a.length i rows prev best).bestj ∧
      (dictLoop a (b2j a) 0 a.length i rows prev best).bestj +
        (dictLoop a (b2j a) 0 a.length i rows prev best).bestsize ≤
        a.length := by
  intro rows
  induction rows with
  | zero =>
    intro i prev best _ _ hdiag hbound _
    rw [dictLoop]
    exact ⟨hdiag, hbound⟩
  | succ rows ih =>
    intro i prev best hsum hprev hdiag hbound hI2
    have hi : i < a.length := by omega
    rw [dictLoop]
    have hmap0 : ∀ j, (fun _ => 0 : ℕ → ℕ) j =
        if j ∈ b2j a (a.getD i ' ') then 0 else runLen a i j := by
      intro j
      by_cases hj : j ∈ b2j a (a.getD i ' ')
      · rw [if_pos hj]
      · rw [if_neg hj]
        refine (runLen_eq_zero_of_not_cond a ?_).symm
        cases hc : condChain a i j
        · rfl
        · exact absurd ((condChain_iff_mem a hi j).mp hc) hj
    have hmem0 : i ∈ b2j a (a.getD i ' ') ∨ runLen a i i ≤ best.bestsize := by
      cases hc : condChain a i i
      · right
        rw [runLen_eq_zero_of_not_cond a hc]
        omega
      · exact Or.inl ((condChain_iff_mem a hi i).mp hc)
    obtain ⟨hmapI, hdiagI, hboundI, hI2I⟩ :=
      innerLoop_invariant a i hi prev hprev (b2j a (a.getD i ' '))
        (fun _ => 0) best (fun j hj => hj) (b2j_pairwise a _) hmap0 hdiag
        hbound hI2 hmem0
    refine ih (i + 1) _ _ (by omega) ?_ hdiagI hboundI ?_
    · intro j
      rw [hmapI j, prevSpec, if_neg (Nat.succ_ne_zero i)]
      rfl
    · intro r hr
      exact hI2I r (by omega)

lemma extendBack_diag (a : List Char) :
    ∀ (fuel t k : ℕ), t ≤ fuel →
      extendBack a a 0 0 fuel t t k = ⟨0, 0, t + k⟩ := by
  intro fuel
  induction fuel with
  | zero =>
    intro t k ht
    have ht0 : t = 0 := by omega
    subst ht0
    rw [extendBack, Nat.zero_add]
  | succ fuel ih =>
    intro t k ht
    rcases t with _ | t0
    · rw [extendBack, if_neg (by simp), Nat.zero_add]
    · rw [extendBack, if_pos (by simp)]
      show extendBack a a 0 0 fuel t0 t0 (k + 1) = _
      rw [ih t0 (k + 1) (by omega)]
      congr 1
      omega

lemma extendFwd_diag (a : List Char) :
    ∀ (fuel m : ℕ), m ≤ a.length → a.length - m ≤ fuel →
      extendFwd a a a.length a.length fuel 0 0 m = ⟨0, 0, a.length⟩ := by
  intro fuel
  induction fuel with
  | zero =>
    intro m hm hf
    have hm0 : m = a.length := by omega
    subst hm0
    rw [extendFwd]
  | succ fuel ih =>
    intro m hm hf
    by_cases hlt : m < a.length
    · rw [extendFwd, if_pos (by simp [hlt])]
      exact ih (m + 1) (by omega) (by omega)
    · have hm0 : m = a.length := by omega
      subst hm0
      rw [extendFwd, if_neg (by simp)]

lemma flm_self (a : List Char) :
    find_longest_match a a (b2j a) 0 a.length 0 a.length =
      ⟨0, 0, a.length⟩ := by
  obtain ⟨hdiag, hbound⟩ := dictLoop_invariant a (a.length - 0) 0
    (fun _ => 0) ⟨0, 0, 0⟩ (by omega)
    (fun j => by rw [prevSpec, if_pos rfl]) rfl (by simp) (by omega)
  rw [find_longest_match, dictThenBack]
  rw [← hdiag]
  rw [extendBack_diag a _ _ _ (le_refl _)]
  show extendFwd a a a.length a.length a.length 0 0 _ = _
  apply extendFwd_diag
  · rw [hdiag]
    exact hbound
  · omega

lemma matchedTotal_self (a : List Char) :
    matchedTotal a a (b2j a) (a.length + a.length + 1) 0 a.length 0
      a.length = a.length := by
  rw [matchedTotal, flm_self]
  by_cases hn : a.length = 0
  · simp [hn]
  · rw [if_neg hn]
    simp

lemma ratioOf_self (a : List Char) : ratioOf a a = 1 := by
  rw [ratioOf]
  by_cases hn : a.length + a.length = 0
  · rw [if_pos hn]
  · rw [if_neg hn, matchedTotal_self]
    rw [Rat.mkRat_eq_divInt]
    have h2 : (2 * (a.length : ℤ)) = ((a.length + a.length : ℕ) : ℤ) := by
      push_cast
      ring
    rw [h2]
    exact Rat.divInt_self' (by exact_mod_cast hn)

/-- Claim C4.  `similarity` is reflexive: for every string (of any length
and content, including strings long enough for the autojunk rule to drop
characters from the index), `similarity(a, a)` is exactly 1. -/
theorem similarity_self (a : List Char) : similarity a a = 1 := by
  rw [similarity, ratioOf_self]
  decide

end Stringextn
